import Mathlib

/-!
Verification development for the TensorRT execution-provider helper pass
(`tensorrt_execution_provider_helper.cc`): subgraph-context bookkeeping,
outer-scope value resolution, input reconciliation, qualified-DQ-node
selection and partition patch-up.

The C++ code is shallowly embedded: graphs, nodes and node args become
inductive data; `std::unordered_set` / `std::unordered_map` become lists
resp. association lists (keys unique, first match wins, assignment
updates in place); functions mutating state by reference become explicit
state-passing functions.
-/

set_option maxHeartbeats 1000000

namespace TrtEp

/-- Boolean list membership, written with decidable equality (models
`std::find` / hash-set membership tests in the C++ code). -/
def memberOf {α : Type} [DecidableEq α] : List α → α → Bool
  | [], _ => false
  | y :: rest, x => if y = x then true else memberOf rest x

@[simp] theorem memberOf_nil {α : Type} [DecidableEq α] (x : α) :
    memberOf [] x = false := rfl

@[simp] theorem memberOf_cons {α : Type} [DecidableEq α] (y : α) (l : List α) (x : α) :
    memberOf (y :: l) x = (if y = x then true else memberOf l x) := rfl

theorem memberOf_iff {α : Type} [DecidableEq α] (l : List α) (x : α) :
    memberOf l x = true ↔ x ∈ l := by
  induction l with
  | nil => simp
  | cons y rest ih =>
    by_cases h : y = x
    · simp [h]
    · simp [h, ih]
      tauto

/-- Association-list lookup on the first component (models
`std::unordered_map::find` / `at`; keys are unique in the C++ maps, the
embedding returns the first match). -/
def alookup {α β : Type} [DecidableEq α] : List (α × β) → α → Option β
  | [], _ => none
  | (k, v) :: rest, key => if k = key then some v else alookup rest key

@[simp] theorem alookup_nil {α β : Type} [DecidableEq α] (key : α) :
    alookup ([] : List (α × β)) key = none := rfl

@[simp] theorem alookup_cons {α β : Type} [DecidableEq α] (k : α) (v : β)
    (rest : List (α × β)) (key : α) :
    alookup ((k, v) :: rest) key = (if k = key then some v else alookup rest key) := rfl

/-- Association-list insert-or-overwrite (models `map[key] = value`). -/
def aupdate {α β : Type} [DecidableEq α] : List (α × β) → α → β → List (α × β)
  | [], key, v => [(key, v)]
  | (k, w) :: rest, key, v =>
    if k = key then (key, v) :: rest else (k, w) :: aupdate rest key v

@[simp] theorem aupdate_nil {α β : Type} [DecidableEq α] (key : α) (v : β) :
    aupdate ([] : List (α × β)) key v = [(key, v)] := rfl

theorem alookup_aupdate {α β : Type} [DecidableEq α] (m : List (α × β)) (k : α) (v : β)
    (key : α) :
    alookup (aupdate m k v) key = if k = key then some v else alookup m key := by
  induction m with
  | nil => simp [aupdate]
  | cons e rest ih =>
    obtain ⟨k', w⟩ := e
    by_cases h1 : k' = k
    · subst h1
      by_cases h2 : k' = key <;> simp [aupdate, h2]
    · by_cases h2 : k' = key
      · subst h2
        have : ¬ (k = k') := fun h => h1 h.symm
        simp [aupdate, h1, this]
      · simp [aupdate, h1, h2, ih]

/-- Grow-only set insertion (models `std::unordered_set::insert`). -/
def insertIfAbsent {α : Type} [DecidableEq α] (l : List α) (x : α) : List α :=
  if memberOf l x then l else l ++ [x]

theorem mem_insertIfAbsent {α : Type} [DecidableEq α] (l : List α) (x y : α) :
    y ∈ insertIfAbsent l x ↔ y ∈ l ∨ y = x := by
  unfold insertIfAbsent
  by_cases h : memberOf l x = true
  · rw [if_pos h]
    rw [memberOf_iff] at h
    constructor
    · exact Or.inl
    · rintro (hy | rfl)
      · exact hy
      · exact h
  · rw [if_neg h]
    simp

/-- ONNX tensor element type (the numeric values of
`ONNX_NAMESPACE::TensorProto_DataType_*`). -/
def TensorProto_DataType_UINT16 : Nat := 4
def TensorProto_DataType_INT16 : Nat := 5
def TensorProto_DataType_INT32 : Nat := 6

/-- Tensor type descriptor reachable through `NodeArg::TypeAsProto()` and
`tensor_type().elem_type()`. -/
structure TypeProtoT where
  tensorElemType : Nat
deriving DecidableEq

/-- Model of `NodeArg`: a named, optionally typed value slot.
`type = none` models `TypeAsProto()` returning `nullptr`. -/
structure NodeArgT where
  name : String
  type : Option TypeProtoT
deriving DecidableEq

/-! ## GraphViewer model for `SelectQualifiedDQNode` -/

/-- Node as seen through `GraphViewer::GetNode` in `SelectQualifiedDQNode`:
op type, input defs, and the output edges (consumer node indices, with
multiplicity, in edge-iteration order; `GetOutputEdgesCount` is the length
and `OutputNodesBegin` dereferences the first entry). -/
structure GVNode where
  name : String
  opType : String
  inputDefs : List NodeArgT
  outputEdges : List Nat
deriving DecidableEq

/-- Model of `GraphViewer`: node slots by index (`none` = removed slot),
the priority-based topological order returned by
`GetNodesInTopologicalOrder(1)`, and the set of names for which
`IsConstantInitializer(name, /*check_outer_scope*/ true)` holds. -/
structure GraphViewer where
  nodes : List (Option GVNode)
  topoOrder : List Nat
  constInitializers : List String

def GraphViewer.getNode (g : GraphViewer) (i : Nat) : Option GVNode :=
  g.nodes.getD i none

def GraphViewer.isConstantInitializer (g : GraphViewer) (name : String) : Bool :=
  memberOf g.constInitializers name

/-- Loop body of `TensorrtExecutionProvider::SelectQualifiedDQNode`
(lines 274-298) for one index of the topological order.  A non-null node
first has `InputDefs()[0]` and `TypeAsProto()->tensor_type().elem_type()`
read (`none` models the C++ faulting when the node has no input or the
input has no type), then the selection conditions are tested; a qualified
node index goes into the selection set and `consumer_to_dq[consumer] =
index` records it under its unique consumer. -/
def selectStep (g : GraphViewer) (index : Nat) (sel : List Nat)
    (cdq : List (Nat × Nat)) : Option (List Nat × List (Nat × Nat)) :=
  match g.getNode index with
  | none => some (sel, cdq)
  | some node =>
    match node.inputDefs.head? with
    | none => none
    | some inputDef =>
      match inputDef.type with
      | none => none
      | some tp =>
        match node.outputEdges with
        | [consumer] =>
          if node.opType = "DequantizeLinear" ∧
             (tp.tensorElemType = TensorProto_DataType_INT32 ∨
              tp.tensorElemType = TensorProto_DataType_INT16 ∨
              tp.tensorElemType = TensorProto_DataType_UINT16) ∧
             g.isConstantInitializer inputDef.name = true then
            some (insertIfAbsent sel index, aupdate cdq consumer index)
          else some (sel, cdq)
        | _ => some (sel, cdq)

/-- Loop of `SelectQualifiedDQNode` over the topological order, threading
the selection set and the consumer-to-producer map. -/
def selectGo (g : GraphViewer) :
    List Nat → List Nat → List (Nat × Nat) → Option (List Nat × List (Nat × Nat))
  | [], sel, cdq => some (sel, cdq)
  | index :: rest, sel, cdq =>
    match selectStep g index sel cdq with
    | none => none
    | some (sel', cdq') => selectGo g rest sel' cdq'

/-- `TensorrtExecutionProvider::SelectQualifiedDQNode`: the caller passes
empty `selection_node_set` and `consumer_to_dq`; `none` models the C++
faulting on a node without a typed first input. -/
def selectQualifiedDQNode (g : GraphViewer) : Option (List Nat × List (Nat × Nat)) :=
  selectGo g g.topoOrder [] []

/-- The selection condition of `SelectQualifiedDQNode`, as one predicate:
non-null node, op type `DequantizeLinear`, exactly one output edge, typed
first input that is a constant initializer of element type INT32/INT16/UINT16. -/
def dqQualified (g : GraphViewer) (index : Nat) : Bool :=
  match g.getNode index with
  | none => false
  | some node =>
    match node.inputDefs.head? with
    | none => false
    | some inputDef =>
      match inputDef.type with
      | none => false
      | some tp =>
        match node.outputEdges with
        | [_] =>
          decide (node.opType = "DequantizeLinear" ∧
            (tp.tensorElemType = TensorProto_DataType_INT32 ∨
             tp.tensorElemType = TensorProto_DataType_INT16 ∨
             tp.tensorElemType = TensorProto_DataType_UINT16) ∧
            g.isConstantInitializer inputDef.name = true)
        | _ => false

/-- The unique consumer of a node with exactly one output edge
(`*node->OutputNodesBegin()` under `GetOutputEdgesCount() == 1`). -/
def dqConsumer (g : GraphViewer) (index : Nat) : Option Nat :=
  match g.getNode index with
  | none => none
  | some node =>
    match node.outputEdges with
    | [c] => some c
    | _ => none

/-! ## Partition patch-up model for `UpdateSupportedNodeVectorForDQ` -/

/-- The `in_the_subgraph_collection` lambda (lines 361-373): the DQ node
index is found in some partition of the collection — skipping partitions
whose `second` (supported) flag is false. -/
def inTheSubgraphCollection (coll : List (List Nat × Bool)) (nodeIndex : List Nat)
    (nodeIdx : Nat) : Bool :=
  coll.any (fun nv => nv.2 && nv.1.any (fun i => nodeIndex.getD i 0 = nodeIdx))

/-- First position of a value in the topological-order vector
(`std::find` + `std::distance`, lines 381-384). -/
def firstIdxOf : List Nat → Nat → Option Nat
  | [], _ => none
  | x :: rest, v => if x = v then some 0 else (firstIdxOf rest v).map (· + 1)

theorem firstIdxOf_getD (l : List Nat) (v i : Nat) (h : firstIdxOf l v = some i) :
    l.getD i 0 = v := by
  induction l generalizing i with
  | nil => simp [firstIdxOf] at h
  | cons x rest ih =>
    unfold firstIdxOf at h
    by_cases hx : x = v
    · rw [if_pos hx] at h
      cases h
      simpa using hx
    · rw [if_neg hx] at h
      cases hrec : firstIdxOf rest v with
      | none => rw [hrec] at h; simp at h
      | some j =>
        rw [hrec] at h
        simp at h
        subst h
        simpa using ih j hrec

/-- Loop body of `UpdateSupportedNodeVectorForDQ` (lines 353-389).  The
state is the pair (current partition, partition collection); the loop runs
over a copy of the partition's original node-position list.  For each
position whose node is a recorded consumer, the mapped DQ node is appended
(by its position in the topological order) unless it already appears in a
supported partition of the collection. -/
def updateDQGo (nodeIndex : List Nat) (consumerToDq : List (Nat × Nat)) :
    List Nat → (List Nat × Bool) × List (List Nat × Bool) →
    (List Nat × Bool) × List (List Nat × Bool)
  | [], st => st
  | index :: rest, st =>
    match alookup consumerToDq (nodeIndex.getD index 0) with
    | none => updateDQGo nodeIndex consumerToDq rest st
    | some dqNodeIndex =>
      if inTheSubgraphCollection st.2 nodeIndex dqNodeIndex then
        updateDQGo nodeIndex consumerToDq rest st
      else
        match firstIdxOf nodeIndex dqNodeIndex with
        | some idx =>
          updateDQGo nodeIndex consumerToDq rest ((st.1.1 ++ [idx], st.1.2), st.2)
        | none => updateDQGo nodeIndex consumerToDq rest st

/-- `TensorrtExecutionProvider::UpdateSupportedNodeVectorForDQ`
(lines 339-390), as a function on the state (partition, collection):
no-op when the consumer map is empty or the partition is unsupported,
otherwise the patch-up loop over the partition's original positions. -/
def updateSupportedNodeVectorForDQ (nodeIndex : List Nat)
    (consumerToDq : List (Nat × Nat)) (snv : List Nat × Bool)
    (coll : List (List Nat × Bool)) : (List Nat × Bool) × List (List Nat × Bool) :=
  if consumerToDq = [] then (snv, coll)
  else if snv.2 = false then (snv, coll)
  else updateDQGo nodeIndex consumerToDq snv.1 (snv, coll)

/-! ## Lemmas about `selectGo` -/

/-- The per-node read obligation of `SelectQualifiedDQNode`: a non-null
node must have a first input def carrying type metadata. -/
def nodeReadOk (g : GraphViewer) (index : Nat) : Prop :=
  ∀ node, g.getNode index = some node →
    ∃ inputDef, node.inputDefs.head? = some inputDef ∧ ∃ tp, inputDef.type = some tp

/-- Complete case analysis of one `SelectQualifiedDQNode` loop iteration:
it faults exactly on a non-null node without a typed first input;
otherwise it either selects a qualified node (inserting it and recording
its unique consumer) or leaves the state unchanged. -/
theorem selectStep_spec (g : GraphViewer) (index : Nat) (sel : List Nat)
    (cdq : List (Nat × Nat)) :
    (¬ nodeReadOk g index ∧ selectStep g index sel cdq = none) ∨
    (nodeReadOk g index ∧
      ((∃ c, dqQualified g index = true ∧ dqConsumer g index = some c ∧
         selectStep g index sel cdq = some (insertIfAbsent sel index, aupdate cdq c index)) ∨
       (dqQualified g index = false ∧ selectStep g index sel cdq = some (sel, cdq)))) := by
  cases hn : g.getNode index with
  | none =>
    right
    constructor
    · intro node hnode
      rw [hn] at hnode
      cases hnode
    · right
      constructor
      · simp only [dqQualified, hn]
      · simp only [selectStep, hn]
  | some node =>
    cases hd : node.inputDefs.head? with
    | none =>
      left
      constructor
      · intro hok
        obtain ⟨inputDef, hd', -⟩ := hok node hn
        rw [hd] at hd'
        cases hd'
      · simp only [selectStep, hn, hd]
    | some inputDef =>
      cases ht : inputDef.type with
      | none =>
        left
        constructor
        · intro hok
          obtain ⟨inputDef', hd', tp, ht'⟩ := hok node hn
          rw [hd] at hd'
          cases hd'
          rw [ht] at ht'
          cases ht'
        · simp only [selectStep, hn, hd, ht]
      | some tp =>
        right
        have hok : nodeReadOk g index := by
          intro node' hn'
          rw [hn] at hn'
          cases hn'
          exact ⟨inputDef, hd, tp, ht⟩
        refine ⟨hok, ?_⟩
        cases he : node.outputEdges with
        | nil =>
          right
          constructor
          · simp only [dqQualified, hn, hd, ht, he]
          · simp only [selectStep, hn, hd, ht, he]
        | cons consumer tail =>
          cases tail with
          | cons c2 t2 =>
            right
            constructor
            · simp only [dqQualified, hn, hd, ht, he]
            · simp only [selectStep, hn, hd, ht, he]
          | nil =>
            by_cases hc : node.opType = "DequantizeLinear" ∧
                (tp.tensorElemType = TensorProto_DataType_INT32 ∨
                 tp.tensorElemType = TensorProto_DataType_INT16 ∨
                 tp.tensorElemType = TensorProto_DataType_UINT16) ∧
                g.isConstantInitializer inputDef.name = true
            · left
              refine ⟨consumer, ?_, ?_, ?_⟩
              · simp only [dqQualified, hn, hd, ht, he]
                exact decide_eq_true hc
              · simp only [dqConsumer, hn, he]
              · simp only [selectStep, hn, hd, ht, he]
                rw [if_pos hc]
            · right
              constructor
              · simp only [dqQualified, hn, hd, ht, he]
                exact decide_eq_false hc
              · simp only [selectStep, hn, hd, ht, he]
                rw [if_neg hc]

theorem selectGo_isSome (g : GraphViewer) (l : List Nat) :
    ∀ sel cdq, (selectGo g l sel cdq).isSome = true ↔ ∀ index ∈ l, nodeReadOk g index := by
  induction l with
  | nil => intro sel cdq; simp [selectGo]
  | cons index rest ih =>
    intro sel cdq
    rcases selectStep_spec g index sel cdq with ⟨hbad, hstep⟩ | ⟨hok, hrest⟩
    · simp only [selectGo, hstep, List.forall_mem_cons]
      simp [hbad]
    · rcases hrest with ⟨c, hq, hcons, hstep⟩ | ⟨hq, hstep⟩ <;>
        simp only [selectGo, hstep, List.forall_mem_cons, ih] <;> simp [hok]

theorem selectGo_mem (g : GraphViewer) (l : List Nat) :
    ∀ sel cdq out, selectGo g l sel cdq = some out →
      ∀ i, i ∈ out.1 ↔ i ∈ sel ∨ (i ∈ l ∧ dqQualified g i = true) := by
  induction l with
  | nil =>
    intro sel cdq out h i
    unfold selectGo at h
    cases h
    simp
  | cons index rest ih =>
    intro sel cdq out h i
    rcases selectStep_spec g index sel cdq with ⟨hbad, hstep⟩ | ⟨hok, hrest⟩
    · simp only [selectGo, hstep] at h
      cases h
    · rcases hrest with ⟨c, hq, hcons, hstep⟩ | ⟨hq, hstep⟩
      · simp only [selectGo, hstep] at h
        rw [ih _ _ _ h i, mem_insertIfAbsent]
        simp only [List.mem_cons]
        constructor
        · rintro ((hs | rfl) | ⟨hr, hqi⟩)
          · exact Or.inl hs
          · exact Or.inr ⟨Or.inl rfl, hq⟩
          · exact Or.inr ⟨Or.inr hr, hqi⟩
        · rintro (hs | ⟨hmem, hqi⟩)
          · exact Or.inl (Or.inl hs)
          · rcases hmem with rfl | hr
            · exact Or.inl (Or.inr rfl)
            · exact Or.inr ⟨hr, hqi⟩
      · simp only [selectGo, hstep] at h
        rw [ih _ _ _ h i]
        simp only [List.mem_cons]
        constructor
        · rintro (hs | ⟨hr, hqi⟩)
          · exact Or.inl hs
          · exact Or.inr ⟨Or.inr hr, hqi⟩
        · rintro (hs | ⟨hmem, hqi⟩)
          · exact Or.inl hs
          · rcases hmem with rfl | hr
            · rw [hq] at hqi; cases hqi
            · exact Or.inr ⟨hr, hqi⟩

/-- Last qualified DQ node with consumer `c` along a node list, starting
from `init` (mirrors the effect of repeated `consumer_to_dq[c] = index`
assignments in visit order). -/
def lastQualifiedWith (g : GraphViewer) (c : Nat) (l : List Nat) (init : Option Nat) :
    Option Nat :=
  l.foldl
    (fun acc i => if dqQualified g i = true ∧ dqConsumer g i = some c then some i else acc)
    init

@[simp] theorem lastQualifiedWith_nil (g : GraphViewer) (c : Nat) (init : Option Nat) :
    lastQualifiedWith g c [] init = init := rfl

theorem lastQualifiedWith_cons (g : GraphViewer) (c : Nat) (index : Nat) (rest : List Nat)
    (init : Option Nat) :
    lastQualifiedWith g c (index :: rest) init =
      lastQualifiedWith g c rest
        (if dqQualified g index = true ∧ dqConsumer g index = some c then some index
         else init) := rfl

theorem selectGo_lookup (g : GraphViewer) (l : List Nat) :
    ∀ sel cdq out, selectGo g l sel cdq = some out →
      ∀ c, alookup out.2 c = lastQualifiedWith g c l (alookup cdq c) := by
  induction l with
  | nil =>
    intro sel cdq out h c
    unfold selectGo at h
    cases h
    simp
  | cons index rest ih =>
    intro sel cdq out h c
    rw [lastQualifiedWith_cons]
    rcases selectStep_spec g index sel cdq with ⟨hbad, hstep⟩ | ⟨hok, hrest⟩
    · simp only [selectGo, hstep] at h
      cases h
    · rcases hrest with ⟨consumer, hq, hcons, hstep⟩ | ⟨hq, hstep⟩
      · simp only [selectGo, hstep] at h
        rw [ih _ _ _ h c, alookup_aupdate]
        rw [hq, hcons]
        simp
      · simp only [selectGo, hstep] at h
        rw [ih _ _ _ h c, hq]
        simp

theorem lastQualifiedWith_isSome_mono (g : GraphViewer) (c : Nat) (l : List Nat) :
    ∀ init : Option Nat, init.isSome = true →
      (lastQualifiedWith g c l init).isSome = true := by
  induction l with
  | nil => intro init h; simpa using h
  | cons j rest ih =>
    intro init h
    rw [lastQualifiedWith_cons]
    by_cases hq : dqQualified g j = true ∧ dqConsumer g j = some c
    · rw [if_pos hq]
      exact ih _ rfl
    · rw [if_neg hq]
      exact ih _ h

theorem lastQualifiedWith_isSome_of_mem (g : GraphViewer) (c i : Nat) (l : List Nat)
    (hmem : i ∈ l) (hq : dqQualified g i = true) (hc : dqConsumer g i = some c) :
    ∀ init, (lastQualifiedWith g c l init).isSome = true := by
  induction hmem with
  | head rest =>
    intro init
    rw [lastQualifiedWith_cons, if_pos ⟨hq, hc⟩]
    exact lastQualifiedWith_isSome_mono g c rest _ rfl
  | tail j hmem ih =>
    intro init
    rw [lastQualifiedWith_cons]
    by_cases hqj : dqQualified g j = true ∧ dqConsumer g j = some c
    · rw [if_pos hqj]; exact ih _
    · rw [if_neg hqj]; exact ih _

theorem lastQualifiedWith_sound (g : GraphViewer) (c : Nat) (l : List Nat) :
    ∀ (init : Option Nat) (d : Nat), lastQualifiedWith g c l init = some d →
      (d ∈ l ∧ dqQualified g d = true ∧ dqConsumer g d = some c) ∨ init = some d := by
  induction l with
  | nil => intro init d h; right; simpa using h
  | cons j rest ih =>
    intro init d h
    rw [lastQualifiedWith_cons] at h
    by_cases hq : dqQualified g j = true ∧ dqConsumer g j = some c
    · rw [if_pos hq] at h
      rcases ih _ _ h with ⟨hm, hq', hc'⟩ | heq
      · exact Or.inl ⟨List.mem_cons_of_mem _ hm, hq', hc'⟩
      · cases heq
        exact Or.inl ⟨List.mem_cons_self _ _, hq.1, hq.2⟩
    · rw [if_neg hq] at h
      rcases ih _ _ h with ⟨hm, hq', hc'⟩ | heq
      · exact Or.inl ⟨List.mem_cons_of_mem _ hm, hq', hc'⟩
      · exact Or.inr heq

theorem lastQualifiedWith_fixed (g : GraphViewer) (c i : Nat) :
    ∀ l : List Nat, (∀ j ∈ l, dqQualified g j = true → dqConsumer g j = some c → j = i) →
      lastQualifiedWith g c l (some i) = some i := by
  intro l
  induction l with
  | nil => intro _; rfl
  | cons j rest ih =>
    intro huniq
    rw [lastQualifiedWith_cons]
    by_cases hqj : dqQualified g j = true ∧ dqConsumer g j = some c
    · rw [if_pos hqj, huniq j (List.mem_cons_self j rest) hqj.1 hqj.2]
      exact ih (fun j' hj' a b => huniq j' (List.mem_cons_of_mem _ hj') a b)
    · rw [if_neg hqj]
      exact ih (fun j' hj' a b => huniq j' (List.mem_cons_of_mem _ hj') a b)

theorem lastQualifiedWith_unique (g : GraphViewer) (c i : Nat)
    (hq : dqQualified g i = true) (hc : dqConsumer g i = some c) :
    ∀ l : List Nat, (∀ j ∈ l, dqQualified g j = true → dqConsumer g j = some c → j = i) →
      i ∈ l → lastQualifiedWith g c l none = some i := by
  intro l
  induction l with
  | nil => intro _ hmem; cases hmem
  | cons j rest ih =>
    intro huniq hmem
    rw [lastQualifiedWith_cons]
    by_cases hqj : dqQualified g j = true ∧ dqConsumer g j = some c
    · have hji : j = i := huniq j (List.mem_cons_self j rest) hqj.1 hqj.2
      rw [if_pos hqj, hji]
      exact lastQualifiedWith_fixed g c i rest
        (fun j' hj' a b => huniq j' (List.mem_cons_of_mem _ hj') a b)
    · rw [if_neg hqj]
      rcases List.mem_cons.mp hmem with rfl | hr
      · exact absurd ⟨hq, hc⟩ hqj
      · exact ih (fun j' hj' a b => huniq j' (List.mem_cons_of_mem _ hj') a b) hr

theorem dqQualified_iff (g : GraphViewer) (i : Nat) :
    dqQualified g i = true ↔
      ∃ node, g.getNode i = some node ∧
        node.opType = "DequantizeLinear" ∧
        node.outputEdges.length = 1 ∧
        ∃ inputDef, node.inputDefs.head? = some inputDef ∧
          g.isConstantInitializer inputDef.name = true ∧
          ∃ tp, inputDef.type = some tp ∧
            (tp.tensorElemType = TensorProto_DataType_INT32 ∨
             tp.tensorElemType = TensorProto_DataType_INT16 ∨
             tp.tensorElemType = TensorProto_DataType_UINT16) := by
  cases hn : g.getNode i with
  | none => simp [dqQualified, hn]
  | some node =>
    cases hd : node.inputDefs.head? with
    | none => simp [dqQualified, hn, hd]
    | some inputDef =>
      cases ht : inputDef.type with
      | none => simp [dqQualified, hn, hd, ht]
      | some tp =>
        cases he : node.outputEdges with
        | nil => simp [dqQualified, hn, hd, ht, he]
        | cons consumer tail =>
          cases tail with
          | cons c2 t2 => simp [dqQualified, hn, hd, ht, he]
          | nil =>
            constructor
            · intro hq
              have hc : node.opType = "DequantizeLinear" ∧
                  (tp.tensorElemType = TensorProto_DataType_INT32 ∨
                   tp.tensorElemType = TensorProto_DataType_INT16 ∨
                   tp.tensorElemType = TensorProto_DataType_UINT16) ∧
                  g.isConstantInitializer inputDef.name = true :=
                of_decide_eq_true (by simpa only [dqQualified, hn, hd, ht, he] using hq)
              obtain ⟨h1, h2, h3⟩ := hc
              exact ⟨node, rfl, h1, by simp [he], inputDef, hd, h3, tp, ht, h2⟩
            · rintro ⟨node', hnode, h1, hlen, inputDef', hinput, h3, tp', htp, h2⟩
              cases hnode
              rw [hd] at hinput
              cases hinput
              rw [ht] at htp
              cases htp
              simp only [dqQualified, hn, hd, ht, he]
              exact decide_eq_true ⟨h1, h2, h3⟩

theorem dqQualified_consumer (g : GraphViewer) (i : Nat)
    (hq : dqQualified g i = true) : ∃ c, dqConsumer g i = some c := by
  cases hn : g.getNode i with
  | none => simp [dqQualified, hn] at hq
  | some node =>
    cases hd : node.inputDefs.head? with
    | none => simp [dqQualified, hn, hd] at hq
    | some inputDef =>
      cases ht : inputDef.type with
      | none => simp [dqQualified, hn, hd, ht] at hq
      | some tp =>
        cases he : node.outputEdges with
        | nil => simp [dqQualified, hn, hd, ht, he] at hq
        | cons consumer tail =>
          cases tail with
          | cons c2 t2 => simp [dqQualified, hn, hd, ht, he] at hq
          | nil =>
            refine ⟨consumer, ?_⟩
            simp only [dqConsumer, hn, he]

/-! ## Lemmas about `updateDQGo` -/

theorem updateDQGo_collEq (nodeIndex : List Nat) (consumerToDq : List (Nat × Nat)) :
    ∀ (l : List Nat) st, (updateDQGo nodeIndex consumerToDq l st).2 = st.2 := by
  intro l
  induction l with
  | nil => intro st; rfl
  | cons index rest ih =>
    intro st
    unfold updateDQGo
    split
    · exact ih st
    · split
      · exact ih st
      · split
        · exact ih _
        · exact ih st

theorem updateDQGo_mem (nodeIndex : List Nat) (consumerToDq : List (Nat × Nat)) :
    ∀ (l : List Nat) st p, p ∈ (updateDQGo nodeIndex consumerToDq l st).1.1 →
      p ∈ st.1.1 ∨ inTheSubgraphCollection st.2 nodeIndex (nodeIndex.getD p 0) = false := by
  intro l
  induction l with
  | nil => intro st p hp; exact Or.inl hp
  | cons index rest ih =>
    intro st p hp
    unfold updateDQGo at hp
    split at hp
    · exact ih st p hp
    · split at hp
      · exact ih st p hp
      · next hnotin =>
        split at hp
        · next idx hfind =>
          rcases ih _ p hp with hmem | hfalse
          · rcases List.mem_append.mp hmem with hmem' | hmem'
            · exact Or.inl hmem'
            · rw [List.mem_singleton] at hmem'
              subst hmem'
              right
              rw [firstIdxOf_getD nodeIndex _ p hfind]
              exact Bool.eq_false_iff.mpr hnotin
          · exact Or.inr hfalse
        · exact ih st p hp

/-! ## Claim theorems: DQ selection (C1, C9) and partition patch-up (C2, C8) -/

/-- Example graph for C1: `Init(c) -> DequantizeLinear -> MatMul`, the DQ
node has a single consumer and a constant INT16 initializer as first input. -/
def gvSingleDQ : GraphViewer :=
  ⟨[some ⟨"dq", "DequantizeLinear", [⟨"c", some ⟨5⟩⟩], [1]⟩,
    some ⟨"m", "MatMul", [⟨"d", some ⟨1⟩⟩], []⟩],
   [0, 1], ["c"]⟩

/-- Graph with two qualified DequantizeLinear nodes (indices 0 and 1)
feeding the same consumer node (index 2). -/
def gvTwoDQOneConsumer : GraphViewer :=
  ⟨[some ⟨"dq1", "DequantizeLinear", [⟨"c1", some ⟨5⟩⟩], [2]⟩,
    some ⟨"dq2", "DequantizeLinear", [⟨"c2", some ⟨5⟩⟩], [2]⟩,
    some ⟨"m", "MatMul", [⟨"d", some ⟨1⟩⟩], []⟩],
   [0, 1, 2], ["c1", "c2"]⟩

/-- C1 (counterexample to the claim as stated): with two qualified DQ
nodes sharing one consumer, node 0 is selected but the map records node 1
(the later visit, last write wins) under their common consumer 2 — so the
map does not record node 0's index under the index of its unique consumer. -/
theorem C1_counterexample :
    selectQualifiedDQNode gvTwoDQOneConsumer = some ([0, 1], [(2, 1)]) ∧
    0 ∈ ([0, 1] : List Nat) ∧
    dqConsumer gvTwoDQOneConsumer 0 = some 2 ∧
    alookup [(2, 1)] 2 = some 1 ∧ (1 : Nat) ≠ 0 := by
  refine ⟨by decide, by decide, by decide, by decide, by decide⟩

/-- C1 (amended): for a successful run of `SelectQualifiedDQNode`, a node
index is in the selection set iff it is visited in the priority-based
topological order and satisfies the four conditions (DequantizeLinear op,
exactly one output edge, constant-initializer first input with outer-scope
lookup, element type INT32/INT16/UINT16); and for every selected node the
map has an entry under its unique consumer's index, that entry is a
selected node with the same unique consumer (the last such node in visit
order — so it is the node itself whenever no other selected node shares
the consumer). -/
theorem C1_selectQualifiedDQNode_spec (g : GraphViewer) (sel : List Nat)
    (cdq : List (Nat × Nat)) (h : selectQualifiedDQNode g = some (sel, cdq)) :
    (∀ i, i ∈ sel ↔ i ∈ g.topoOrder ∧
        ∃ node, g.getNode i = some node ∧
          node.opType = "DequantizeLinear" ∧
          node.outputEdges.length = 1 ∧
          ∃ inputDef, node.inputDefs.head? = some inputDef ∧
            g.isConstantInitializer inputDef.name = true ∧
            ∃ tp, inputDef.type = some tp ∧
              (tp.tensorElemType = TensorProto_DataType_INT32 ∨
               tp.tensorElemType = TensorProto_DataType_INT16 ∨
               tp.tensorElemType = TensorProto_DataType_UINT16)) ∧
    (∀ i ∈ sel, ∃ c, dqConsumer g i = some c ∧
        ∃ d, alookup cdq c = some d ∧ d ∈ sel ∧ dqConsumer g d = some c ∧
          ((∀ j ∈ sel, dqConsumer g j = some c → j = i) → d = i)) := by
  unfold selectQualifiedDQNode at h
  have hmem := selectGo_mem g g.topoOrder [] [] (sel, cdq) h
  have hmem' : ∀ i, i ∈ sel ↔ i ∈ g.topoOrder ∧ dqQualified g i = true := by
    intro i
    rw [hmem i]
    simp
  constructor
  · intro i
    rw [hmem' i, dqQualified_iff]
  · intro i hi
    obtain ⟨htopo, hq⟩ := (hmem' i).mp hi
    obtain ⟨c, hc⟩ := dqQualified_consumer g i hq
    refine ⟨c, hc, ?_⟩
    have hlook := selectGo_lookup g g.topoOrder [] [] (sel, cdq) h c
    simp only [alookup_nil] at hlook
    have hsome := lastQualifiedWith_isSome_of_mem g c i g.topoOrder htopo hq hc none
    cases hlast : lastQualifiedWith g c g.topoOrder none with
    | none => rw [hlast] at hsome; cases hsome
    | some d =>
      rw [hlast] at hlook
      rcases lastQualifiedWith_sound g c g.topoOrder none d hlast with ⟨hdm, hdq, hdc⟩ | habs
      · refine ⟨d, hlook, (hmem' d).mpr ⟨hdm, hdq⟩, hdc, ?_⟩
        intro huniq
        have huniq' : ∀ j ∈ g.topoOrder, dqQualified g j = true →
            dqConsumer g j = some c → j = i := by
          intro j hj hjq hjc
          exact huniq j ((hmem' j).mpr ⟨hj, hjq⟩) hjc
        have := lastQualifiedWith_unique g c i hq hc g.topoOrder huniq' htopo
        rw [hlast] at this
        cases this
        rfl
      · cases habs

/-- C1 witness: on the single-DQ example, applying the amended theorem
shows the consumer map records the DQ node 0 under its consumer 1. -/
theorem C1_witness : alookup [(1, 0)] 1 = some 0 := by
  have h := C1_selectQualifiedDQNode_spec gvSingleDQ [0] [(1, 0)] (by decide)
  obtain ⟨c, hc, d, hd, hds, -, -⟩ := h.2 0 (by decide)
  have hc1 : dqConsumer gvSingleDQ 0 = some 1 := by decide
  rw [hc1] at hc
  cases hc
  rw [List.mem_singleton] at hds
  subst hds
  exact hd

/-- C9: `SelectQualifiedDQNode` completes without faulting exactly when
every node visited in the topological order (non-null slot) has a first
input def that carries type metadata — the reads `InputDefs()[0]` and
`TypeAsProto()` happen for every node, before the `DequantizeLinear`
op-type test, so this is a totality precondition the spec does not state. -/
theorem C9_selectQualifiedDQNode_totality (g : GraphViewer) :
    (selectQualifiedDQNode g).isSome = true ↔
      ∀ index ∈ g.topoOrder, ∀ node, g.getNode index = some node →
        ∃ inputDef, node.inputDefs.head? = some inputDef ∧
          ∃ tp, inputDef.type = some tp := by
  unfold selectQualifiedDQNode
  rw [selectGo_isSome]
  unfold nodeReadOk
  exact Iff.rfl

/-- C2 (counterexample to the claim as stated): the DQ node with index 10
sits (as position 0 of the topological order) in a partition of the
collection that is marked unsupported; the patch-up nevertheless appends
its position 0 to the current partition, because the duplicate check
skips unsupported partitions. -/
theorem C2_counterexample :
    (∃ nv ∈ ([([0], false)] : List (List Nat × Bool)), ∃ i ∈ nv.1,
        ([10, 11] : List Nat).getD i 0 = 10) ∧
    (updateSupportedNodeVectorForDQ [10, 11] [(11, 10)] ([1], true) [([0], false)]).1.1
      = [1, 0] ∧
    ([10, 11] : List Nat).getD 0 0 = 10 ∧ (0 : Nat) ∉ ([1] : List Nat) := by
  refine ⟨by decide, by decide, by decide, by decide⟩

/-- C2 (amended): a producer (DQ) node whose index already appears in a
partition of the collection that is marked supported is never appended to
the current partition by the patch-up. -/
theorem C2_patchup_no_supported_duplicate (nodeIndex : List Nat)
    (consumerToDq : List (Nat × Nat)) (snv : List Nat × Bool)
    (coll : List (List Nat × Bool)) (dq : Nat)
    (hin : inTheSubgraphCollection coll nodeIndex dq = true) :
    ∀ p ∈ (updateSupportedNodeVectorForDQ nodeIndex consumerToDq snv coll).1.1,
      p ∉ snv.1 → nodeIndex.getD p 0 ≠ dq := by
  intro p hp hnot heq
  unfold updateSupportedNodeVectorForDQ at hp
  split at hp
  · exact hnot hp
  · split at hp
    · exact hnot hp
    · rcases updateDQGo_mem nodeIndex consumerToDq snv.1 (snv, coll) p hp with hmem | hfalse
      · exact hnot hmem
      · rw [heq, hin] at hfalse
        cases hfalse

/-- C2 witness: DQ node 10 lies in a supported sibling partition, so only
the other DQ node 20 (position 2) is appended; the appended position does
not denote node 10. -/
theorem C2_witness : ([10, 11, 20, 21] : List Nat).getD 2 0 ≠ 10 := by
  have h := C2_patchup_no_supported_duplicate [10, 11, 20, 21] [(11, 10), (21, 20)]
    ([1, 3], true) [([0], true)] 10 (by decide)
  exact h 2 (by decide) (by decide)

/-- C8: the patch-up never changes the partition collection, and leaves
the current partition unchanged when the consumer-to-producer map is
empty or the partition is marked unsupported. -/
theorem C8_patchup_frame (nodeIndex : List Nat) (consumerToDq : List (Nat × Nat))
    (snv : List Nat × Bool) (coll : List (List Nat × Bool)) :
    (updateSupportedNodeVectorForDQ nodeIndex consumerToDq snv coll).2 = coll ∧
    (consumerToDq = [] →
      (updateSupportedNodeVectorForDQ nodeIndex consumerToDq snv coll).1 = snv) ∧
    (snv.2 = false →
      (updateSupportedNodeVectorForDQ nodeIndex consumerToDq snv coll).1 = snv) := by
  refine ⟨?_, ?_, ?_⟩
  · unfold updateSupportedNodeVectorForDQ
    split
    · rfl
    · split
      · rfl
      · exact updateDQGo_collEq nodeIndex consumerToDq snv.1 (snv, coll)
  · intro h
    unfold updateSupportedNodeVectorForDQ
    rw [if_pos h]
  · intro h
    unfold updateSupportedNodeVectorForDQ
    by_cases h1 : consumerToDq = []
    · rw [if_pos h1]
    · rw [if_neg h1, if_pos h]

/-- C8 witness: with an empty consumer map and an unsupported partition,
both no-op hypotheses are discharged at a concrete input and the
collection is returned unchanged. -/
theorem C8_witness :
    (updateSupportedNodeVectorForDQ [0] [] ([5], false) [([1], true)]).2 = [([1], true)] ∧
    (updateSupportedNodeVectorForDQ [0] [] ([5], false) [([1], true)]).1 = ([5], false) ∧
    (updateSupportedNodeVectorForDQ [0] [] ([5], false) [([1], true)]).1 = ([5], false) := by
  have h := C8_patchup_frame [0] [] ([5], false) [([1], true)]
  exact ⟨h.1, h.2.1 rfl, h.2.2 rfl⟩

/-! ## Graph model for the subgraph-context machinery

`Graph` objects as read by the helper functions: node slots by index
(`GetNode` may return null), the declared inputs-including-initializers,
and the graph's node-arg table (`GetNodeArg` / `GetOrCreateNodeArg`).
Nodes carry their attribute-name-to-subgraph map.  The C++ parent-graph
pointer is represented by passing a graph's ancestor chain (immediate
parent first, root last) alongside it. -/

mutual
inductive NodeT : Type where
  | mk (name : String) (inputDefs : List NodeArgT) (outputDefs : List NodeArgT)
       (implicitInputDefs : List NodeArgT) (subgraphs : List (String × GraphT)) : NodeT

inductive GraphT : Type where
  | mk (name : String) (nodes : List (Option NodeT))
       (inputsIncl : List NodeArgT) (nodeArgs : List NodeArgT) : GraphT
end

def NodeT.name : NodeT → String
  | .mk n _ _ _ _ => n

def NodeT.inputDefs : NodeT → List NodeArgT
  | .mk _ i _ _ _ => i

def NodeT.outputDefs : NodeT → List NodeArgT
  | .mk _ _ o _ _ => o

def NodeT.implicitInputDefs : NodeT → List NodeArgT
  | .mk _ _ _ im _ => im

def NodeT.subgraphs : NodeT → List (String × GraphT)
  | .mk _ _ _ _ s => s

def GraphT.name : GraphT → String
  | .mk n _ _ _ => n

def GraphT.nodes : GraphT → List (Option NodeT)
  | .mk _ ns _ _ => ns

def GraphT.inputsIncl : GraphT → List NodeArgT
  | .mk _ _ inp _ => inp

def GraphT.nodeArgs : GraphT → List NodeArgT
  | .mk _ _ _ na => na

/-- Names of the non-null node slots, in index order (the strings hashed
by `GetUniqueGraphName`). -/
def nodeNames : List (Option NodeT) → List String
  | [] => []
  | .none :: rest => nodeNames rest
  | .some n :: rest => n.name :: nodeNames rest

/-- Modelled from the spec: `MurmurHash3::x86_128` over the ordered node
names (`core/framework/murmurhash3.h` is not among the sources).  The
spec requires only "a reproducible 128-bit-class digest of an ordered
list of strings", "used purely as a map key", so the embedding uses a
simple deterministic digest of the same input, reduced mod 2^64 like the
`model_hash` the C++ assembles from the hash words. -/
def specNameDigest (names : List String) : Nat :=
  names.foldl
    (fun h s => s.data.foldl (fun h' ch => (h' * 31 + ch.toNat) % 18446744073709551616) h)
    0

/-- `GetUniqueGraphName` (lines 13-33): graph name + "_" + digest of all
non-null nodes' names. -/
def getUniqueGraphName (g : GraphT) : String :=
  g.name ++ "_" ++ toString (specNameDigest (nodeNames g.nodes))

/-- `SubGraphContext`: per-graph bookkeeping (sets and maps embedded as
lists / association lists). -/
structure SubGraphContext where
  output_args : List String
  inputs_and_initializers : List (String × NodeArgT)
  manually_added_graph_inputs : List (String × NodeArgT)
deriving DecidableEq

/-- The `subgraph_context_map_` member, keyed by unique graph name. -/
abbrev Store := List (String × SubGraphContext)

/-- `TensorrtExecutionProvider::IsLocalValue` (lines 58-67): false when
the graph's context has not been built; otherwise membership of the name
in the context's `output_args` or `inputs_and_initializers`. -/
def isLocalValue (store : Store) (g : GraphT) (name : String) : Bool :=
  match alookup store (getUniqueGraphName g) with
  | none => false
  | some ctx =>
    memberOf ctx.output_args name || (alookup ctx.inputs_and_initializers name).isSome

/-- `TensorrtExecutionProvider::IsInputInitializerOrOutput` (lines 38-45):
local value, or — when `checkAncestors` — the same predicate at the parent
graph.  The ancestor chain stands for the C++ parent-graph pointers. -/
def isInputInitializerOrOutput (store : Store) :
    List GraphT → GraphT → String → Bool → Bool
  | ancestors, g, name, checkAncestors =>
    isLocalValue store g name ||
    (checkAncestors &&
      match ancestors with
      | [] => false
      | p :: rest => isInputInitializerOrOutput store rest p name checkAncestors)

/-- `TensorrtExecutionProvider::IsOuterScopeValue` (lines 49-54): the
graph has a parent and `IsInputInitializerOrOutput` with ancestors holds
there.  `ancestors` is the queried graph's parent chain. -/
def isOuterScopeValue (store : Store) (ancestors : List GraphT) (name : String) : Bool :=
  match ancestors with
  | [] => false
  | p :: rest => isInputInitializerOrOutput store rest p name true

/-- C3: the ancestor-resolution predicates.  `IsInputInitializerOrOutput`
holds iff the value is local or (`check_ancestors` and it recursively
holds at the parent); with `check_ancestors = false` it is exactly
`IsLocalValue` (no ancestor consulted); with `true` it holds iff some
graph on the chain (the graph itself or an ancestor, terminating at the
root) exposes the value; and `IsOuterScopeValue` holds iff there is a
parent at which the with-ancestors predicate holds. -/
theorem C3_ancestor_resolution (store : Store) :
    ∀ (ancestors : List GraphT) (g : GraphT) (v : String),
      (∀ ca, isInputInitializerOrOutput store ancestors g v ca = true ↔
        (isLocalValue store g v = true ∨ (ca = true ∧ ∃ p rest, ancestors = p :: rest ∧
          isInputInitializerOrOutput store rest p v ca = true))) ∧
      (isInputInitializerOrOutput store ancestors g v false = isLocalValue store g v) ∧
      (isInputInitializerOrOutput store ancestors g v true = true ↔
        ∃ x ∈ g :: ancestors, isLocalValue store x v = true) ∧
      (isOuterScopeValue store ancestors v = true ↔
        ∃ p rest, ancestors = p :: rest ∧
          isInputInitializerOrOutput store rest p v true = true) := by
  have hfalse : ∀ (ancestors : List GraphT) (g : GraphT) (v : String),
      isInputInitializerOrOutput store ancestors g v false = isLocalValue store g v := by
    intro ancestors g v
    unfold isInputInitializerOrOutput
    simp
  have htrans : ∀ (ancestors : List GraphT) (g : GraphT) (v : String),
      isInputInitializerOrOutput store ancestors g v true = true ↔
        ∃ x ∈ g :: ancestors, isLocalValue store x v = true := by
    intro ancestors
    induction ancestors with
    | nil =>
      intro g v
      unfold isInputInitializerOrOutput
      simp
    | cons p rest ih =>
      intro g v
      unfold isInputInitializerOrOutput
      simp only [Bool.true_and, Bool.or_eq_true, ih p v]
      simp only [List.mem_cons]
      constructor
      · rintro (hl | ⟨x, hx, hxl⟩)
        · exact ⟨g, Or.inl rfl, hl⟩
        · exact ⟨x, Or.inr hx, hxl⟩
      · rintro ⟨x, hx, hxl⟩
        rcases hx with rfl | hx
        · exact Or.inl hxl
        · exact Or.inr ⟨x, hx, hxl⟩
  intro ancestors g v
  refine ⟨?_, hfalse ancestors g v, htrans ancestors g v, ?_⟩
  · intro ca
    cases ca with
    | false =>
      rw [hfalse ancestors g v]
      simp
    | true =>
      rw [htrans ancestors g v]
      cases ancestors with
      | nil => simp
      | cons p rest =>
        constructor
        · rintro ⟨x, hx, hl⟩
          rcases List.mem_cons.mp hx with rfl | hx
          · exact Or.inl hl
          · exact Or.inr ⟨rfl, p, rest, rfl, (htrans rest p v).mpr ⟨x, hx, hl⟩⟩
        · rintro (hl | ⟨-, p1, rest1, heq, hin⟩)
          · exact ⟨g, List.mem_cons_self g _, hl⟩
          · injection heq with h1 h2
            subst h1
            subst h2
            obtain ⟨x, hx, hl⟩ := (htrans rest p v).mp hin
            exact ⟨x, List.mem_cons_of_mem g hx, hl⟩
  · unfold isOuterScopeValue
    cases ancestors with
    | nil => simp
    | cons p rest =>
      constructor
      · intro h
        exact ⟨p, rest, rfl, h⟩
      · rintro ⟨p1, rest1, heq, h3⟩
        injection heq with h1 h2
        subst h1
        subst h2
        exact h3

/-- C10: for a graph whose identity has no entry in the context store,
`IsLocalValue` is false for every name, `IsInputInitializerOrOutput`
without ancestors is false, and with ancestors it degenerates to
`IsOuterScopeValue` — the unbuilt context behaves exactly like an empty
one, no failure. -/
theorem C10_unbuilt_context (store : Store) (ancestors : List GraphT) (g : GraphT)
    (v : String) (h : alookup store (getUniqueGraphName g) = none) :
    isLocalValue store g v = false ∧
    isInputInitializerOrOutput store ancestors g v false = false ∧
    isInputInitializerOrOutput store ancestors g v true =
      isOuterScopeValue store ancestors v := by
  have hl : isLocalValue store g v = false := by
    unfold isLocalValue
    rw [h]
  refine ⟨hl, ?_, ?_⟩
  · unfold isInputInitializerOrOutput
    rw [hl]
    simp
  · unfold isInputInitializerOrOutput isOuterScopeValue
    rw [hl]
    cases ancestors <;> simp

/-- C10 witness: empty store, trivial graph. -/
theorem C10_witness :
    isLocalValue [] (GraphT.mk "g" [] [] []) "x" = false ∧
    isInputInitializerOrOutput [] [] (GraphT.mk "g" [] [] []) "x" false = false ∧
    isInputInitializerOrOutput [] [] (GraphT.mk "g" [] [] []) "x" true =
      isOuterScopeValue [] [] "x" :=
  C10_unbuilt_context [] [] (GraphT.mk "g" [] [] []) "x" rfl

/-! ## `BuildSubGraphContext` (lines 74-127) -/

/-- First scan (lines 100-109): insert every non-null node's output names
into `output_args`. -/
def insertOutputs (acc : List String) : List NodeArgT → List String
  | [] => acc
  | a :: rest => insertOutputs (insertIfAbsent acc a.name) rest

def collectOutputArgs (acc : List String) : List (Option NodeT) → List String
  | [] => acc
  | .none :: rest => collectOutputArgs acc rest
  | .some n :: rest => collectOutputArgs (insertOutputs acc n.outputDefs) rest

/-- Second scan (lines 112-126): record every node input that is not in
`output_args` into `inputs_and_initializers` (`map[name] = input`).  The
`ConvertInMemoryDataToInline` call is external (`graph_utils`, outside
the sources) and affects only the serialized graph bytes, not the
context; it is not modelled. -/
def insertInputs (oa : List String) (acc : List (String × NodeArgT)) :
    List NodeArgT → List (String × NodeArgT)
  | [] => acc
  | a :: rest =>
    insertInputs oa (if memberOf oa a.name then acc else aupdate acc a.name a) rest

def collectII (oa : List String) (acc : List (String × NodeArgT)) :
    List (Option NodeT) → List (String × NodeArgT)
  | [] => acc
  | .none :: rest => collectII oa acc rest
  | .some n :: rest => collectII oa (insertInputs oa acc n.inputDefs) rest

/-- The context the two scans of `BuildSubGraphContext` populate for a
graph (the C++ emplaces an empty context and then fills it; nothing reads
the store in between, so computing it first is equivalent). -/
def computeSubGraphContext (g : GraphT) : SubGraphContext :=
  let oa := collectOutputArgs [] g.nodes
  { output_args := oa
    inputs_and_initializers := collectII oa [] g.nodes
    manually_added_graph_inputs := [] }

mutual
/-- `TensorrtExecutionProvider::BuildSubGraphContext`: recurse into every
node's subgraphs first (lines 76-87), then return if the identity is
already present (lines 89-94), else store the freshly built context
(lines 96-126). -/
def bscGraph (store : Store) (g : GraphT) : Store :=
  match g with
  | .mk nm ns inp na =>
    let store1 := bscNodes store ns
    let ugn := getUniqueGraphName (GraphT.mk nm ns inp na)
    if (alookup store1 ugn).isSome then store1
    else (ugn, computeSubGraphContext (GraphT.mk nm ns inp na)) :: store1

def bscNodes (store : Store) (ns : List (Option NodeT)) : Store :=
  match ns with
  | [] => store
  | .none :: rest => bscNodes store rest
  | .some n :: rest => bscNodes (bscNode store n) rest

def bscNode (store : Store) (n : NodeT) : Store :=
  match n with
  | .mk _ _ _ _ subs => bscSubs store subs

def bscSubs (store : Store) (subs : List (String × GraphT)) : Store :=
  match subs with
  | [] => store
  | (_, sub) :: rest => bscSubs (bscGraph store sub) rest
end

mutual
theorem bscGraph_preserves (store : Store) (g : GraphT) (k : String)
    (c : SubGraphContext) (h : alookup store k = some c) :
    alookup (bscGraph store g) k = some c := by
  match g with
  | .mk nm ns inp na =>
    have h1 := bscNodes_preserves store ns k c h
    simp only [bscGraph]
    split
    · exact h1
    · next hfresh =>
      rw [alookup_cons]
      split
      · next heq =>
        rw [heq, h1] at hfresh
        simp at hfresh
      · exact h1

theorem bscNodes_preserves (store : Store) (ns : List (Option NodeT)) (k : String)
    (c : SubGraphContext) (h : alookup store k = some c) :
    alookup (bscNodes store ns) k = some c := by
  match ns with
  | [] => exact h
  | .none :: rest => exact bscNodes_preserves store rest k c h
  | .some n :: rest =>
    exact bscNodes_preserves _ rest k c (bscNode_preserves store n k c h)

theorem bscNode_preserves (store : Store) (n : NodeT) (k : String)
    (c : SubGraphContext) (h : alookup store k = some c) :
    alookup (bscNode store n) k = some c := by
  match n with
  | .mk _ _ _ _ subs => exact bscSubs_preserves store subs k c h

theorem bscSubs_preserves (store : Store) (subs : List (String × GraphT)) (k : String)
    (c : SubGraphContext) (h : alookup store k = some c) :
    alookup (bscSubs store subs) k = some c := by
  match subs with
  | [] => exact h
  | (_, sub) :: rest =>
    exact bscSubs_preserves _ rest k c (bscGraph_preserves store sub k c h)
end

/-- C4: `BuildSubGraphContext` on a graph whose identity is already in the
store leaves that identity's context — in particular its `output_args`
and `inputs_and_initializers` — untouched (the recursive subgraph pass
may only add entries under fresh identities, and the early return fires
before any mutation of the present context). -/
theorem C4_buildSubGraphContext_idempotent (store : Store) (g : GraphT)
    (ctx : SubGraphContext)
    (h : alookup store (getUniqueGraphName g) = some ctx) :
    alookup (bscGraph store g) (getUniqueGraphName g) = some ctx :=
  bscGraph_preserves store g (getUniqueGraphName g) ctx h

/-- Simple one-node graph (`n : x ↦ y`) for the C4 witness. -/
def gSimple : GraphT :=
  .mk "g" [some (.mk "n" [⟨"x", none⟩] [⟨"y", none⟩] [] [])] [] []

/-- C4 witness: building twice from the empty store leaves the context
built by the first call unchanged. -/
theorem C4_witness :
    alookup (bscGraph (bscGraph [] gSimple) gSimple) (getUniqueGraphName gSimple)
      = some (computeSubGraphContext gSimple) :=
  C4_buildSubGraphContext_idempotent (bscGraph [] gSimple) gSimple
    (computeSubGraphContext gSimple) (by decide)

/-! ## C5: completeness of the input classification -/

theorem alookup_insertInputs_of_oa (oa : List String) (k : String)
    (hk : memberOf oa k = true) :
    ∀ (l : List NodeArgT) (acc : List (String × NodeArgT)),
      alookup (insertInputs oa acc l) k = alookup acc k := by
  intro l
  induction l with
  | nil => intro acc; rfl
  | cons a rest ih =>
    intro acc
    simp only [insertInputs]
    by_cases hm : memberOf oa a.name = true
    · rw [if_pos hm]
      exact ih acc
    · rw [if_neg hm, ih _, alookup_aupdate]
      have hne : a.name ≠ k := by
        intro heq
        rw [heq, hk] at hm
        exact hm rfl
      rw [if_neg hne]

theorem alookup_collectII_of_oa (oa : List String) (k : String)
    (hk : memberOf oa k = true) :
    ∀ (ns : List (Option NodeT)) (acc : List (String × NodeArgT)),
      alookup (collectII oa acc ns) k = alookup acc k := by
  intro ns
  induction ns with
  | nil => intro acc; rfl
  | cons slot rest ih =>
    intro acc
    cases slot with
    | none => exact ih acc
    | some n =>
      simp only [collectII]
      rw [ih _, alookup_insertInputs_of_oa oa k hk]

theorem insertInputs_mono (oa : List String) (k : String) :
    ∀ (l : List NodeArgT) (acc : List (String × NodeArgT)),
      (alookup acc k).isSome = true →
      (alookup (insertInputs oa acc l) k).isSome = true := by
  intro l
  induction l with
  | nil => intro acc h; exact h
  | cons a rest ih =>
    intro acc h
    simp only [insertInputs]
    by_cases hm : memberOf oa a.name = true
    · rw [if_pos hm]
      exact ih acc h
    · rw [if_neg hm]
      refine ih _ ?_
      rw [alookup_aupdate]
      by_cases hak : a.name = k
      · rw [if_pos hak]; rfl
      · rw [if_neg hak]; exact h

theorem collectII_mono (oa : List String) (k : String) :
    ∀ (ns : List (Option NodeT)) (acc : List (String × NodeArgT)),
      (alookup acc k).isSome = true →
      (alookup (collectII oa acc ns) k).isSome = true := by
  intro ns
  induction ns with
  | nil => intro acc h; exact h
  | cons slot rest ih =>
    intro acc h
    cases slot with
    | none => exact ih acc h
    | some n =>
      simp only [collectII]
      exact ih _ (insertInputs_mono oa k n.inputDefs acc h)

theorem insertInputs_present (oa : List String) (a : NodeArgT)
    (hm : memberOf oa a.name = false) :
    ∀ (l : List NodeArgT), a ∈ l →
      ∀ acc, (alookup (insertInputs oa acc l) a.name).isSome = true := by
  intro l hmem
  induction hmem with
  | head rest =>
    intro acc
    have hstep : (if memberOf oa a.name = true then acc else aupdate acc a.name a)
        = aupdate acc a.name a := by
      rw [hm]
      simp
    simp only [insertInputs]
    rw [hstep]
    refine insertInputs_mono oa a.name rest _ ?_
    rw [alookup_aupdate, if_pos rfl]
    rfl
  | tail b hmem ih =>
    intro acc
    simp only [insertInputs]
    exact ih _

theorem collectII_present (oa : List String) (a : NodeArgT) (n : NodeT)
    (hm : memberOf oa a.name = false) (ha : a ∈ n.inputDefs) :
    ∀ (ns : List (Option NodeT)), some n ∈ ns →
      ∀ acc, (alookup (collectII oa acc ns) a.name).isSome = true := by
  intro ns hmem
  induction hmem with
  | head rest =>
    intro acc
    simp only [collectII]
    exact collectII_mono oa a.name rest _
      (insertInputs_present oa a hm n.inputDefs ha acc)
  | tail b hmem ih =>
    intro acc
    cases b with
    | none => exact ih acc
    | some m =>
      simp only [collectII]
      exact ih _

/-- C5 (amended): after `BuildSubGraphContext` on a graph whose identity
was still absent when the graph's own scan began (i.e. after the
recursive subgraph pass), every input name of every node of the graph is
classified in exactly one of the stored context's `output_args` or
`inputs_and_initializers` — never both, never neither. -/
theorem C5_input_classification (store : Store) (g : GraphT)
    (habs : alookup (bscNodes store g.nodes) (getUniqueGraphName g) = none) :
    ∃ ctx, alookup (bscGraph store g) (getUniqueGraphName g) = some ctx ∧
      ∀ slot ∈ g.nodes, ∀ n, slot = some n → ∀ a ∈ n.inputDefs,
        ((memberOf ctx.output_args a.name = true ∨
          (alookup ctx.inputs_and_initializers a.name).isSome = true) ∧
         ¬(memberOf ctx.output_args a.name = true ∧
           (alookup ctx.inputs_and_initializers a.name).isSome = true)) := by
  cases g with
  | mk nm ns inp na =>
    simp only [GraphT.nodes] at habs ⊢
    refine ⟨computeSubGraphContext (GraphT.mk nm ns inp na), ?_, ?_⟩
    · simp only [bscGraph]
      split
      · next hcontra =>
        rw [habs] at hcontra
        simp at hcontra
      · rw [alookup_cons, if_pos rfl]
    · intro slot hslot n hn a ha
      subst hn
      have hctx : computeSubGraphContext (GraphT.mk nm ns inp na) =
          { output_args := collectOutputArgs [] ns
            inputs_and_initializers := collectII (collectOutputArgs [] ns) [] ns
            manually_added_graph_inputs := [] } := rfl
      rw [hctx]
      by_cases hm : memberOf (collectOutputArgs [] ns) a.name = true
      · refine ⟨Or.inl hm, ?_⟩
        rintro ⟨-, hii⟩
        rw [alookup_collectII_of_oa _ _ hm ns []] at hii
        simp at hii
      · have hm' : memberOf (collectOutputArgs [] ns) a.name = false :=
          Bool.eq_false_iff.mpr hm
        have hpres := collectII_present (collectOutputArgs [] ns) a n hm' ha ns hslot []
        exact ⟨Or.inr hpres, fun hboth => hm hboth.1⟩

/-- Inner graph for the C5 counterexample: same graph name and node-name
list as `gIdCollision` (hence the same identity) but a different input. -/
def gIdCollisionSub : GraphT :=
  .mk "g" [some (.mk "n" [⟨"z", none⟩] [⟨"y", none⟩] [] [])] [] []

/-- C5 counterexample graph: its single node carries `gIdCollisionSub` as
an attribute subgraph; both graphs are named "g" with one node named "n",
so `GetUniqueGraphName` collides. -/
def gIdCollision : GraphT :=
  .mk "g" [some (.mk "n" [⟨"x", none⟩] [⟨"y", none⟩] [] [("body", gIdCollisionSub)])] [] []

/-- C5 (counterexample to the claim as stated): building from the empty
store, the subgraph's context is stored first under the shared identity;
the outer graph's scan is then skipped by the early return, and its node
input "x" is found in neither `output_args` nor `inputs_and_initializers`
of the context stored under the outer graph's identity. -/
theorem C5_counterexample :
    getUniqueGraphName gIdCollision = getUniqueGraphName gIdCollisionSub ∧
    ∃ ctx, alookup (bscGraph [] gIdCollision) (getUniqueGraphName gIdCollision) = some ctx ∧
      some (NodeT.mk "n" [⟨"x", none⟩] [⟨"y", none⟩] [] [("body", gIdCollisionSub)])
        ∈ gIdCollision.nodes ∧
      (⟨"x", none⟩ : NodeArgT) ∈
        (NodeT.mk "n" [⟨"x", none⟩] [⟨"y", none⟩] [] [("body", gIdCollisionSub)]).inputDefs ∧
      memberOf ctx.output_args "x" = false ∧
      alookup ctx.inputs_and_initializers "x" = none := by
  refine ⟨by decide, computeSubGraphContext gIdCollisionSub, by decide, ?_, by decide,
    by decide, by decide⟩
  exact List.mem_singleton.mpr rfl

/-- C5 witness: on the collision-free one-node graph, the input "x" of
node "n" is classified in exactly one of the two sets. -/
theorem C5_witness :
    ∃ ctx, alookup (bscGraph [] gSimple) (getUniqueGraphName gSimple) = some ctx ∧
      ((memberOf ctx.output_args "x" = true ∨
        (alookup ctx.inputs_and_initializers "x").isSome = true) ∧
       ¬(memberOf ctx.output_args "x" = true ∧
         (alookup ctx.inputs_and_initializers "x").isSome = true)) := by
  obtain ⟨ctx, h1, h2⟩ := C5_input_classification [] gSimple (by decide)
  exact ⟨ctx, h1,
    h2 _ (List.mem_singleton.mpr rfl) _ rfl ⟨"x", none⟩ (List.mem_singleton.mpr rfl)⟩

/-! ## `SetAllGraphInputs` (lines 228-261) -/

/-- `Graph::SetInputs`: install the authoritative input list. -/
def setInputs (g : GraphT) (inputs : List NodeArgT) : GraphT :=
  match g with
  | .mk nm ns _ na => .mk nm ns inputs na

/-- The loop over `inputs_and_initializers` (lines 241-244): push every
value and record its key in the seen-set, unconditionally. -/
def reconcilePairsAll (st : List NodeArgT × List String) :
    List (String × NodeArgT) → List NodeArgT × List String
  | [] => st
  | (k, a) :: rest => reconcilePairsAll (st.1 ++ [a], insertIfAbsent st.2 k) rest

/-- The loop over `manually_added_graph_inputs` (lines 246-251): push a
value only when its key is not yet in the seen-set. -/
def reconcilePairsChecked (st : List NodeArgT × List String) :
    List (String × NodeArgT) → List NodeArgT × List String
  | [] => st
  | (k, a) :: rest =>
    reconcilePairsChecked
      (if memberOf st.2 k then st else (st.1 ++ [a], insertIfAbsent st.2 k)) rest

/-- The loop over the graph's declared inputs (lines 253-258): push a
node arg only when its name is not yet in the seen-set. -/
def reconcileArgs (st : List NodeArgT × List String) :
    List NodeArgT → List NodeArgT × List String
  | [] => st
  | a :: rest =>
    reconcileArgs
      (if memberOf st.2 a.name then st else (st.1 ++ [a], insertIfAbsent st.2 a.name)) rest

/-- `TensorrtExecutionProvider::SetAllGraphInputs`: no-op without a
context or without manually added inputs; otherwise build the input list
from the three sources with name-deduplication and install it. -/
def setAllGraphInputs (store : Store) (g : GraphT) : GraphT :=
  match alookup store (getUniqueGraphName g) with
  | none => g
  | some ctx =>
    if ctx.manually_added_graph_inputs.length = 0 then g
    else
      let s1 := reconcilePairsAll ([], []) ctx.inputs_and_initializers
      let s2 := reconcilePairsChecked s1 ctx.manually_added_graph_inputs
      let s3 := reconcileArgs s2 g.inputsIncl
      setInputs g s3.1

/-- The spec's description of the reconciled list: the concatenation of
the three groups with each value name kept at its first occurrence only. -/
def dedupByName (seen : List String) : List NodeArgT → List NodeArgT
  | [] => []
  | a :: rest =>
    if memberOf seen a.name then dedupByName seen rest
    else a :: dedupByName (a.name :: seen) rest

/-- Modelled from the spec (refinement reference): "the union, in this
fixed precedence order, of (1) context `inputs_and_initializers` values,
(2) context `manually_added_graph_inputs` values not already included,
(3) the graph's current declared inputs-including-initializers not
already included — each value name inserted at most once (first
occurrence wins)". -/
def reconcileSpec (g1 g2 g3 : List NodeArgT) : List NodeArgT :=
  dedupByName [] (g1 ++ g2 ++ g3)

theorem setInputs_inputsIncl (g : GraphT) (l : List NodeArgT) :
    (setInputs g l).inputsIncl = l := by
  cases g
  rfl

theorem reconcileArgs_eq_dedup :
    ∀ (l : List NodeArgT) (acc : List NodeArgT) (seen seen' : List String),
      (∀ x, x ∈ seen ↔ x ∈ seen') →
      (reconcileArgs (acc, seen) l).1 = acc ++ dedupByName seen' l := by
  intro l
  induction l with
  | nil => intro acc seen seen' _; simp [reconcileArgs, dedupByName]
  | cons a rest ih =>
    intro acc seen seen' hagree
    have hmb : memberOf seen a.name = memberOf seen' a.name := by
      by_cases hx : a.name ∈ seen'
      · rw [(memberOf_iff seen a.name).mpr ((hagree a.name).mpr hx),
          (memberOf_iff seen' a.name).mpr hx]
      · rw [Bool.eq_false_iff.mpr
            (fun hc => hx ((hagree a.name).mp ((memberOf_iff _ _).mp hc))),
          Bool.eq_false_iff.mpr (fun hc => hx ((memberOf_iff _ _).mp hc))]
    simp only [reconcileArgs, dedupByName]
    by_cases hm : memberOf seen' a.name = true
    · rw [hm] at hmb
      rw [hmb, if_pos rfl, if_pos hm]
      exact ih acc seen seen' hagree
    · have hm' : memberOf seen' a.name = false := Bool.eq_false_iff.mpr hm
      rw [hm'] at hmb
      rw [hmb, if_neg (by simp), if_neg hm]
      rw [ih (acc ++ [a]) (insertIfAbsent seen a.name) (a.name :: seen')
        (fun x => by
          rw [mem_insertIfAbsent, List.mem_cons]
          constructor
          · rintro (hx | rfl)
            · exact Or.inr ((hagree x).mp hx)
            · exact Or.inl rfl
          · rintro (rfl | hx)
            · exact Or.inr rfl
            · exact Or.inl ((hagree x).mpr hx))]
      simp

theorem reconcilePairsChecked_eq :
    ∀ (l : List (String × NodeArgT)) (st : List NodeArgT × List String),
      (∀ e ∈ l, e.2.name = e.1) →
      reconcilePairsChecked st l = reconcileArgs st (l.map Prod.snd) := by
  intro l
  induction l with
  | nil => intro st _; rfl
  | cons e rest ih =>
    intro st hkm
    obtain ⟨k, a⟩ := e
    have hka : a.name = k := hkm (k, a) (List.mem_cons_self _ _)
    simp only [reconcilePairsChecked, List.map_cons, reconcileArgs]
    rw [hka]
    exact ih _ (fun e' he' => hkm e' (List.mem_cons_of_mem _ he'))

theorem reconcilePairsAll_eq :
    ∀ (l : List (String × NodeArgT)) (st : List NodeArgT × List String),
      (∀ e ∈ l, e.2.name = e.1) →
      (l.map Prod.fst).Nodup →
      (∀ e ∈ l, memberOf st.2 e.1 = false) →
      reconcilePairsAll st l = reconcileArgs st (l.map Prod.snd) := by
  intro l
  induction l with
  | nil => intro st _ _ _; rfl
  | cons e rest ih =>
    intro st hkm hnodup hfresh
    obtain ⟨k, a⟩ := e
    have hka : a.name = k := hkm (k, a) (List.mem_cons_self _ _)
    have hf : memberOf st.2 k = false := hfresh (k, a) (List.mem_cons_self _ _)
    simp only [reconcilePairsAll, List.map_cons, reconcileArgs]
    rw [hka, hf, if_neg (by simp)]
    have hnodup' : k ∉ rest.map Prod.fst ∧ (rest.map Prod.fst).Nodup := by
      rw [List.map_cons] at hnodup
      exact List.nodup_cons.mp hnodup
    have hknotin : k ∉ rest.map Prod.fst := hnodup'.1
    refine ih _ (fun e' he' => hkm e' (List.mem_cons_of_mem _ he')) ?_ ?_
    · exact hnodup'.2
    · intro e' he'
      have h1 : memberOf st.2 e'.1 = false := hfresh e' (List.mem_cons_of_mem _ he')
      refine Bool.eq_false_iff.mpr (fun hc => ?_)
      have := (memberOf_iff _ _).mp hc
      rw [mem_insertIfAbsent] at this
      rcases this with hmem | heq
      · rw [(memberOf_iff _ _).mpr hmem] at h1
        cases h1
      · exact hknotin (heq ▸ List.mem_map_of_mem Prod.fst he')

theorem reconcileArgs_append (l1 l2 : List NodeArgT) :
    ∀ st, reconcileArgs st (l1 ++ l2) = reconcileArgs (reconcileArgs st l1) l2 := by
  induction l1 with
  | nil => intro st; rfl
  | cons a rest ih =>
    intro st
    simp only [List.cons_append, reconcileArgs]
    exact ih _

theorem dedupByName_nodup :
    ∀ (l : List NodeArgT) (seen : List String),
      ((dedupByName seen l).map NodeArgT.name).Nodup ∧
      ∀ x ∈ (dedupByName seen l).map NodeArgT.name, x ∉ seen := by
  intro l
  induction l with
  | nil => intro seen; simp [dedupByName]
  | cons a rest ih =>
    intro seen
    simp only [dedupByName]
    by_cases hm : memberOf seen a.name = true
    · rw [if_pos hm]
      exact ih seen
    · rw [if_neg hm]
      obtain ⟨ihn, ihs⟩ := ih (a.name :: seen)
      constructor
      · simp only [List.map_cons]
        refine List.nodup_cons.mpr ⟨?_, ihn⟩
        intro hmem
        exact ihs a.name hmem (List.mem_cons_self _ _)
      · intro x hx hxs
        simp only [List.map_cons, List.mem_cons] at hx
        rcases hx with rfl | hx
        · exact hm ((memberOf_iff _ _).mpr hxs)
        · exact ihs x hx (List.mem_cons_of_mem _ hxs)

/-- C6: `SetAllGraphInputs` is a no-op when the graph has no stored
context or no manually added inputs; otherwise (under the unordered-map
invariants that the context's keys are unique and match the stored
values' names) it installs exactly the spec's reconciled list — groups
(1) `inputs_and_initializers`, (2) `manually_added_graph_inputs`,
(3) declared inputs, deduplicated by name with first occurrence winning
— and the result carries no duplicate names. -/
theorem C6_setAllGraphInputs (store : Store) (g : GraphT) :
    (alookup store (getUniqueGraphName g) = none → setAllGraphInputs store g = g) ∧
    (∀ ctx, alookup store (getUniqueGraphName g) = some ctx →
      ctx.manually_added_graph_inputs = [] → setAllGraphInputs store g = g) ∧
    (∀ ctx, alookup store (getUniqueGraphName g) = some ctx →
      ctx.manually_added_graph_inputs ≠ [] →
      (ctx.inputs_and_initializers.map Prod.fst).Nodup →
      (∀ e ∈ ctx.inputs_and_initializers, e.2.name = e.1) →
      (∀ e ∈ ctx.manually_added_graph_inputs, e.2.name = e.1) →
      (setAllGraphInputs store g).inputsIncl =
        reconcileSpec (ctx.inputs_and_initializers.map Prod.snd)
          (ctx.manually_added_graph_inputs.map Prod.snd) g.inputsIncl ∧
      (((setAllGraphInputs store g).inputsIncl).map NodeArgT.name).Nodup) := by
  refine ⟨?_, ?_, ?_⟩
  · intro h
    simp only [setAllGraphInputs, h]
  · intro ctx h hma
    simp only [setAllGraphInputs, h, hma]
    simp
  · intro ctx h hma hnodup hkm1 hkm2
    have hlen : ¬ ctx.manually_added_graph_inputs.length = 0 := by
      intro hlen
      exact hma (List.length_eq_zero.mp hlen)
    have hfold : (reconcileArgs
        (reconcilePairsChecked (reconcilePairsAll ([], []) ctx.inputs_and_initializers)
          ctx.manually_added_graph_inputs) g.inputsIncl).1 =
        reconcileSpec (ctx.inputs_and_initializers.map Prod.snd)
          (ctx.manually_added_graph_inputs.map Prod.snd) g.inputsIncl := by
      rw [reconcilePairsAll_eq ctx.inputs_and_initializers ([], []) hkm1 hnodup
        (fun _ _ => rfl)]
      rw [reconcilePairsChecked_eq ctx.manually_added_graph_inputs _ hkm2]
      rw [← reconcileArgs_append, ← reconcileArgs_append]
      unfold reconcileSpec
      rw [reconcileArgs_eq_dedup _ [] [] [] (fun x => Iff.rfl)]
      simp
    constructor
    · simp only [setAllGraphInputs, h]
      rw [if_neg hlen, setInputs_inputsIncl]
      exact hfold
    · simp only [setAllGraphInputs, h]
      rw [if_neg hlen, setInputs_inputsIncl, hfold]
      unfold reconcileSpec
      exact (dedupByName_nodup _ []).1

/-- Context and graph for the C6 witness: "i" appears both as a recorded
input/initializer and as a declared graph input, "m" is manually added,
"k" is only declared. -/
def ctxC6 : SubGraphContext :=
  ⟨[], [("i", ⟨"i", none⟩)], [("m", ⟨"m", none⟩)]⟩

def gC6 : GraphT := .mk "h" [] [⟨"i", none⟩, ⟨"k", none⟩] []

def storeC6 : Store := [(getUniqueGraphName gC6, ctxC6)]

/-- C6 witness: the reconciled input list on a concrete overlapping
instance equals the spec's dedup-by-name union and has unique names. -/
theorem C6_witness :
    (setAllGraphInputs storeC6 gC6).inputsIncl =
      reconcileSpec [⟨"i", none⟩] [⟨"m", none⟩] [⟨"i", none⟩, ⟨"k", none⟩] ∧
    (((setAllGraphInputs storeC6 gC6).inputsIncl).map NodeArgT.name).Nodup := by
  have h := (C6_setAllGraphInputs storeC6 gC6).2.2 ctxC6 (by decide) (by decide)
    (by decide) (by decide) (by decide)
  exact h

/-! ## `SetGraphOuterScopeValuesAndInputs` (lines 130-224) -/

/-- Name lookup in a node-arg table, first match (`Graph::GetNodeArg`,
and the existing-arg case of `GetOrCreateNodeArg`). -/
def findArg : List NodeArgT → String → Option NodeArgT
  | [], _ => none
  | a :: rest, nm => if a.name = nm then some a else findArg rest nm

theorem findArg_name :
    ∀ (l : List NodeArgT) (nm : String) (a : NodeArgT),
      findArg l nm = some a → a.name = nm := by
  intro l
  induction l with
  | nil => intro nm a h; cases h
  | cons b rest ih =>
    intro nm a h
    unfold findArg at h
    by_cases hb : b.name = nm
    · rw [if_pos hb] at h
      cases h
      exact hb
    · rw [if_neg hb] at h
      exact ih nm a h

/-- The scan for the original node with the build node's name
(lines 144-150): first non-null node whose name matches. -/
def findNodeByName : List (Option NodeT) → String → Option NodeT
  | [], _ => none
  | .none :: rest, nm => findNodeByName rest nm
  | .some n :: rest, nm => if n.name = nm then some n else findNodeByName rest nm

/-- `context->manually_added_graph_inputs[name] = arg` for the context
stored under the given identity (first entry with that key). -/
def storeUpdateMa : Store → String → String → NodeArgT → Store
  | [], _, _, _ => []
  | (k, c) :: rest, ugn, key, v =>
    if k = ugn then
      (k, { c with
            manually_added_graph_inputs := aupdate c.manually_added_graph_inputs key v })
        :: rest
    else (k, c) :: storeUpdateMa rest ugn key v

/-- Loop over the original parent node's implicit inputs (lines 185-222):
for each implicit input used in the current build subgraph
(`GetNodeArg` succeeds), skip if already manually promoted, skip if
resolvable as an outer-scope value, skip if already among the top-level
graph's declared inputs; otherwise record the (created-or-fetched) node
arg under its name in the top-level context's
`manually_added_graph_inputs`.  `AddOuterScopeNodeArg` (line 192) and the
node-arg-table mutation of `GetOrCreateNodeArg` (line 215) are not
tracked: no later read in this function depends on them. -/
def sgosvImplicits (store : Store) (ancestors : List GraphT) (gb topLevel : GraphT)
    (ugn : String) (inputs : List NodeArgT) : Store :=
  match inputs with
  | [] => store
  | input :: rest =>
    let store' :=
      if (findArg gb.nodeArgs input.name).isSome then
        match alookup store ugn with
        | none => store
        | some ctx =>
          if (alookup ctx.manually_added_graph_inputs input.name).isSome then store
          else if isOuterScopeValue store ancestors input.name then store
          else if memberOf (topLevel.inputsIncl.map NodeArgT.name) input.name then store
          else
            let nInput :=
              match findArg topLevel.nodeArgs input.name with
              | some existing => existing
              | none => NodeArgT.mk input.name input.type
            storeUpdateMa store ugn nInput.name nInput
      else store
    sgosvImplicits store' ancestors gb topLevel ugn rest

/-- The per-graph tail of `SetGraphOuterScopeValuesAndInputs`
(lines 166-223): only for subgraphs (parent node present, i.e. a
non-empty ancestor chain); find the top-level ancestor, return if its
context is missing, else process the parent node's implicit inputs. -/
def sgosvBlock (store : Store) (ancestors : List GraphT) (implicits : List NodeArgT)
    (gb : GraphT) : Store :=
  match ancestors with
  | [] => store
  | a :: rest =>
    let topLevel := rest.getLastD a
    let ugn := getUniqueGraphName topLevel
    match alookup store ugn with
    | none => store
    | some _ => sgosvImplicits store (a :: rest) gb topLevel ugn implicits

mutual
/-- `TensorrtExecutionProvider::SetGraphOuterScopeValuesAndInputs` on a
matched (build graph, original graph) pair: recurse into all matched
attribute subgraphs of all build nodes first (lines 133-161), then
process the current level (lines 166-223).  `ancestors` is the build
graph's parent chain, `implicits` the original parent node's implicit
inputs. -/
def sgosvGraph (store : Store) (ancestors : List GraphT) (implicits : List NodeArgT)
    (gb g : GraphT) : Store :=
  match gb with
  | .mk nm ns inp na =>
    let store1 := sgosvNodes store (GraphT.mk nm ns inp na :: ancestors) g ns
    sgosvBlock store1 ancestors implicits (GraphT.mk nm ns inp na)

def sgosvNodes (store : Store) (chain : List GraphT) (g : GraphT)
    (ns : List (Option NodeT)) : Store :=
  match ns with
  | [] => store
  | .none :: rest => sgosvNodes store chain g rest
  | .some (.mk bnm _bi _bo _bim bsubs) :: rest =>
    let store' :=
      match findNodeByName g.nodes bnm with
      | none => store
      | some onode => sgosvSubs store chain onode.implicitInputDefs onode.subgraphs bsubs
    sgosvNodes store' chain g rest

def sgosvSubs (store : Store) (chain : List GraphT) (childImplicits : List NodeArgT)
    (origSubs : List (String × GraphT)) (bsubs : List (String × GraphT)) : Store :=
  match bsubs with
  | [] => store
  | (attr, sgb) :: rest =>
    let store' :=
      match alookup origSubs attr with
      | none => store
      | some sg => sgosvGraph store chain childImplicits sgb sg
    sgosvSubs store' chain childImplicits origSubs rest
end

/-- Entry point: the outer driver calls the resolver on the top-level
pair (no parent node, no ancestors, no implicit inputs). -/
def setGraphOuterScopeValuesAndInputs (store : Store) (graphBuild graph : GraphT) :
    Store :=
  sgosvGraph store [] [] graphBuild graph

/-! ## C7: promotion happens at most once per value name -/

/-- The `manually_added_graph_inputs` entries recorded for name `v` in the
context stored under `key` (`none` when no context is stored). -/
def maEntriesFor (store : Store) (key v : String) : Option (List (String × NodeArgT)) :=
  (alookup store key).map
    (fun c => c.manually_added_graph_inputs.filter (fun e => decide (e.1 = v)))

/-- Invariant under which the resolver never writes an entry for `v` into
the top-level context: the context exists and `v` is already manually
promoted there, or `v` is among the top-level graph's declared inputs. -/
def promotionGuard (store : Store) (root : GraphT) (v : String) : Prop :=
  ∃ l, maEntriesFor store (getUniqueGraphName root) v = some l ∧
    (l ≠ [] ∨ v ∈ root.inputsIncl.map NodeArgT.name)

theorem alookup_storeUpdateMa :
    ∀ (store : Store) (ugn k : String) (w : NodeArgT) (key : String),
      alookup (storeUpdateMa store ugn k w) key =
        if ugn = key then
          (alookup store key).map
            (fun c => { c with
              manually_added_graph_inputs := aupdate c.manually_added_graph_inputs k w })
        else alookup store key := by
  intro store ugn k w
  induction store with
  | nil =>
    intro key
    by_cases h : ugn = key <;> simp [storeUpdateMa, h]
  | cons e rest ih =>
    intro key
    obtain ⟨k0, c⟩ := e
    simp only [storeUpdateMa]
    by_cases h0 : k0 = ugn
    · subst h0
      by_cases hk : k0 = key
      · subst hk
        simp [alookup_cons]
      · simp [alookup_cons, hk]
    · rw [if_neg h0]
      by_cases hk : k0 = key
      · subst hk
        have hne : ¬ (ugn = k0) := fun h => h0 h.symm
        simp [alookup_cons, hne]
      · simp [alookup_cons, hk, ih key]

theorem filter_aupdate_ne (k v : String) (w : NodeArgT) (hk : k ≠ v) :
    ∀ m : List (String × NodeArgT),
      (aupdate m k w).filter (fun e => decide (e.1 = v)) =
        m.filter (fun e => decide (e.1 = v)) := by
  intro m
  induction m with
  | nil => simp [aupdate, hk]
  | cons e rest ih =>
    obtain ⟨k0, w0⟩ := e
    simp only [aupdate]
    by_cases h0 : k0 = k
    · subst h0
      rw [if_pos rfl]
      simp [List.filter_cons, hk]
    · rw [if_neg h0]
      rw [List.filter_cons, List.filter_cons]
      by_cases hv : k0 = v
      · simp [hv, ih]
      · simp [hv, ih]

theorem alookup_isSome_iff_filter (v : String) :
    ∀ m : List (String × NodeArgT),
      (alookup m v).isSome = true ↔ m.filter (fun e => decide (e.1 = v)) ≠ [] := by
  intro m
  induction m with
  | nil => simp
  | cons e rest ih =>
    obtain ⟨k0, w0⟩ := e
    rw [alookup_cons, List.filter_cons]
    by_cases h0 : k0 = v
    · simp [h0]
    · rw [if_neg (fun h => h0 h), decide_eq_false h0, if_neg (by simp)]
      exact ih

theorem sgosvImplicits_preserves (root : GraphT) (v : String) :
    ∀ (inputs : List NodeArgT) (store : Store) (ancestors : List GraphT) (gb : GraphT),
      promotionGuard store root v →
      maEntriesFor
          (sgosvImplicits store ancestors gb root (getUniqueGraphName root) inputs)
          (getUniqueGraphName root) v =
        maEntriesFor store (getUniqueGraphName root) v := by
  intro inputs
  induction inputs with
  | nil => intro store ancestors gb _; rfl
  | cons input rest ih =>
    intro store ancestors gb hguard
    obtain ⟨l, hl, hdisj⟩ := hguard
    obtain ⟨ctx, hctx, hfil⟩ : ∃ ctx,
        alookup store (getUniqueGraphName root) = some ctx ∧
          ctx.manually_added_graph_inputs.filter (fun e => decide (e.1 = v)) = l := by
      unfold maEntriesFor at hl
      cases halo : alookup store (getUniqueGraphName root) with
      | none => rw [halo] at hl; cases hl
      | some ctx =>
        rw [halo] at hl
        exact ⟨ctx, rfl, Option.some.inj hl⟩
    have hstep : ∀ store',
        maEntriesFor store' (getUniqueGraphName root) v =
          maEntriesFor store (getUniqueGraphName root) v →
        maEntriesFor
            (sgosvImplicits store' ancestors gb root (getUniqueGraphName root) rest)
            (getUniqueGraphName root) v =
          maEntriesFor store (getUniqueGraphName root) v := by
      intro store' heq
      have hguard' : promotionGuard store' root v := ⟨l, heq.trans hl, hdisj⟩
      rw [ih store' ancestors gb hguard']
      exact heq
    simp only [sgosvImplicits]
    by_cases h1 : (findArg gb.nodeArgs input.name).isSome = true
    · simp only [h1, hctx, if_true]
      by_cases h2 : (alookup ctx.manually_added_graph_inputs input.name).isSome = true
      · rw [if_pos h2]
        exact hstep store rfl
      · rw [if_neg h2]
        by_cases h3 : isOuterScopeValue store ancestors input.name = true
        · rw [if_pos h3]
          exact hstep store rfl
        · rw [if_neg h3]
          by_cases h4 : memberOf (root.inputsIncl.map NodeArgT.name) input.name = true
          · rw [if_pos h4]
            exact hstep store rfl
          · rw [if_neg h4]
            have hnev : input.name ≠ v := by
              intro heq
              subst heq
              rcases hdisj with hne | hmem
              · rw [← hfil] at hne
                exact h2 ((alookup_isSome_iff_filter input.name
                  ctx.manually_added_graph_inputs).mpr hne)
              · exact h4 ((memberOf_iff _ _).mpr hmem)
            set nInput :=
              match findArg root.nodeArgs input.name with
              | some existing => existing
              | none => NodeArgT.mk input.name input.type with hnInput
            have hnn : nInput.name = input.name := by
              rw [hnInput]
              cases hfa : findArg root.nodeArgs input.name with
              | none => rfl
              | some existing => exact findArg_name root.nodeArgs input.name existing hfa
            refine hstep (storeUpdateMa store (getUniqueGraphName root) nInput.name nInput) ?_
            unfold maEntriesFor
            rw [alookup_storeUpdateMa, if_pos rfl, hctx]
            simp only [Option.map_some, Option.map]
            rw [filter_aupdate_ne nInput.name v nInput (hnn ▸ hnev)]
    · rw [if_neg h1]
      exact hstep store rfl

theorem sgosvBlock_preserves (root : GraphT) (v : String) (store : Store)
    (ancestors : List GraphT) (implicits : List NodeArgT) (gb : GraphT)
    (hroot : ancestors.getLastD gb = root) (hguard : promotionGuard store root v) :
    maEntriesFor (sgosvBlock store ancestors implicits gb) (getUniqueGraphName root) v =
      maEntriesFor store (getUniqueGraphName root) v := by
  cases ancestors with
  | nil => rfl
  | cons a rest =>
    have htop : rest.getLastD a = root := by
      rw [List.getLastD_cons] at hroot
      exact hroot
    simp only [sgosvBlock, htop]
    cases halo : alookup store (getUniqueGraphName root) with
    | none => rfl
    | some c =>
      exact sgosvImplicits_preserves root v implicits store (a :: rest) gb hguard

mutual
theorem sgosvGraph_preserves (root : GraphT) (v : String) (store : Store)
    (ancestors : List GraphT) (implicits : List NodeArgT) (gb g : GraphT)
    (hroot : ancestors.getLastD gb = root) (hguard : promotionGuard store root v) :
    maEntriesFor (sgosvGraph store ancestors implicits gb g) (getUniqueGraphName root) v =
      maEntriesFor store (getUniqueGraphName root) v := by
  match gb with
  | .mk nm ns inp na =>
    have h1 := sgosvNodes_preserves root v store (GraphT.mk nm ns inp na :: ancestors)
      g ns ⟨GraphT.mk nm ns inp na, ancestors, rfl, hroot⟩ hguard
    have hguard1 : promotionGuard
        (sgosvNodes store (GraphT.mk nm ns inp na :: ancestors) g ns) root v := by
      obtain ⟨l, hl, hd⟩ := hguard
      exact ⟨l, h1.trans hl, hd⟩
    have h2 := sgosvBlock_preserves root v
      (sgosvNodes store (GraphT.mk nm ns inp na :: ancestors) g ns)
      ancestors implicits (GraphT.mk nm ns inp na) hroot hguard1
    simp only [sgosvGraph]
    exact h2.trans h1

theorem sgosvNodes_preserves (root : GraphT) (v : String) (store : Store)
    (chain : List GraphT) (g : GraphT) (ns : List (Option NodeT))
    (hchain : ∃ c cs, chain = c :: cs ∧ cs.getLastD c = root)
    (hguard : promotionGuard store root v) :
    maEntriesFor (sgosvNodes store chain g ns) (getUniqueGraphName root) v =
      maEntriesFor store (getUniqueGraphName root) v := by
  match ns with
  | [] => rfl
  | .none :: rest => exact sgosvNodes_preserves root v store chain g rest hchain hguard
  | .some (.mk bnm _bi _bo _bim bsubs) :: rest =>
    simp only [sgosvNodes]
    cases hfind : findNodeByName g.nodes bnm with
    | none => exact sgosvNodes_preserves root v store chain g rest hchain hguard
    | some onode =>
      have hS := sgosvSubs_preserves root v store chain onode.implicitInputDefs
        onode.subgraphs bsubs hchain hguard
      have hguard' : promotionGuard
          (sgosvSubs store chain onode.implicitInputDefs onode.subgraphs bsubs) root v := by
        obtain ⟨l, hl, hd⟩ := hguard
        exact ⟨l, hS.trans hl, hd⟩
      have hrest := sgosvNodes_preserves root v
        (sgosvSubs store chain onode.implicitInputDefs onode.subgraphs bsubs)
        chain g rest hchain hguard'
      exact hrest.trans hS

theorem sgosvSubs_preserves (root : GraphT) (v : String) (store : Store)
    (chain : List GraphT) (childImplicits : List NodeArgT)
    (origSubs : List (String × GraphT)) (bsubs : List (String × GraphT))
    (hchain : ∃ c cs, chain = c :: cs ∧ cs.getLastD c = root)
    (hguard : promotionGuard store root v) :
    maEntriesFor (sgosvSubs store chain childImplicits origSubs bsubs)
        (getUniqueGraphName root) v =
      maEntriesFor store (getUniqueGraphName root) v := by
  match bsubs with
  | [] => rfl
  | (attr, sgb) :: rest =>
    simp only [sgosvSubs]
    cases halo : alookup origSubs attr with
    | none =>
      exact sgosvSubs_preserves root v store chain childImplicits origSubs rest
        hchain hguard
    | some sg =>
      have hroot' : chain.getLastD sgb = root := by
        obtain ⟨c, cs, rfl, hlast⟩ := hchain
        rw [List.getLastD_cons]
        exact hlast
      have hG := sgosvGraph_preserves root v store chain childImplicits sgb sg
        hroot' hguard
      have hguard' : promotionGuard (sgosvGraph store chain childImplicits sgb sg) root v := by
        obtain ⟨l, hl, hd⟩ := hguard
        exact ⟨l, hG.trans hl, hd⟩
      have hrest := sgosvSubs_preserves root v (sgosvGraph store chain childImplicits sgb sg)
        chain childImplicits origSubs rest hchain hguard'
      exact hrest.trans hG
end

/-- C7: promotion is performed at most once per value name.  If a value
name is already present in the top-level context's
`manually_added_graph_inputs`, or already appears among the top-level
graph's inputs-including-initializers, then running
`SetGraphOuterScopeValuesAndInputs` leaves the
`manually_added_graph_inputs` entries recorded for that name exactly as
they were — no second input entry with that name is created. -/
theorem C7_promotion_once (store : Store) (graphBuild graph : GraphT) (v : String)
    (ctx : SubGraphContext)
    (hctx : alookup store (getUniqueGraphName graphBuild) = some ctx)
    (hv : (alookup ctx.manually_added_graph_inputs v).isSome = true ∨
          v ∈ graphBuild.inputsIncl.map NodeArgT.name) :
    maEntriesFor (setGraphOuterScopeValuesAndInputs store graphBuild graph)
        (getUniqueGraphName graphBuild) v =
      maEntriesFor store (getUniqueGraphName graphBuild) v := by
  have hguard : promotionGuard store graphBuild v := by
    refine ⟨ctx.manually_added_graph_inputs.filter (fun e => decide (e.1 = v)), ?_, ?_⟩
    · unfold maEntriesFor
      rw [hctx]
      rfl
    · rcases hv with h | h
      · exact Or.inl ((alookup_isSome_iff_filter v ctx.manually_added_graph_inputs).mp h)
      · exact Or.inr h
  exact sgosvGraph_preserves graphBuild v store [] [] graphBuild graph rfl hguard

/-- Build graph for the C7 witness, with "x" already manually promoted in
its stored context. -/
def gbC7 : GraphT := .mk "g" [] [] []

def storeC7 : Store := [(getUniqueGraphName gbC7, ⟨[], [], [("x", ⟨"x", none⟩)]⟩)]

/-- C7 witness: a second resolver run leaves the entries recorded for the
already-promoted name "x" unchanged. -/
theorem C7_witness :
    maEntriesFor (setGraphOuterScopeValuesAndInputs storeC7 gbC7 gbC7)
        (getUniqueGraphName gbC7) "x" =
      maEntriesFor storeC7 (getUniqueGraphName gbC7) "x" :=
  C7_promotion_once storeC7 gbC7 gbC7 "x" ⟨[], [], [("x", ⟨"x", none⟩)]⟩
    (by decide) (Or.inl (by decide))

end TrtEp
